import Mathlib

/-!
Verification development for the flux repository.

The Go sources are shallowly embedded as Lean definitions:

* `arrowutil` — the generated array-copy helpers of
  `internal/arrowutil/copy.gen.go.tmpl`.  An Arrow array is modelled as the
  list of its entries, with `none` standing for a null slot; a builder is
  modelled as the list of entries appended so far.
* `repl` — the cancel-function bookkeeping of `repl/repl.go`
  (`cancel`, `setCancel`, `clearCancel`), instrumented with a counter of how
  often each registered context-cancel function has been invoked.
* `engine` — the execution-engine contracts of the specification (dispatcher
  per-key state machine, allocator accounting, first-error-wins policy,
  cancellation, single-pass tables).  The engine code itself is not part of
  the sampled sources, so these definitions are modelled from the spec.
* `fp` — an exact model of IEEE-754 binary64 arithmetic over unnormalised
  integer fractions (round to nearest, ties to even, 53-bit significand),
  used to state the floating-point scenarios bit-exactly.
* `histq` / `tables` — the `histogramQuantile` and `rename`/`keep`
  scenarios of the stdlib test files, modelled from the spec.
-/

namespace arrowutil

/-- An Arrow array: the sequence of entries, `none` for a null slot.
`IsNull i` is `(arr.getD i none).isNone` and `Value i` is the carried
value, matching the accessors used by the generated copy code. -/
abbrev ArrowArr (α : Type) := List (Option α)

/-- Builder call `b.AppendNull()`: appends a null entry. -/
def appendNull {α : Type} (b : ArrowArr α) : ArrowArr α := b ++ [none]

/-- Builder call `b.Append(v)`: appends the value `v`. -/
def appendValue {α : Type} (b : ArrowArr α) (v : α) : ArrowArr α := b ++ [some v]

/-- Loop body shared by the generated copy functions, at source offset `i`:
`if arr.IsNull(i) { b.AppendNull() } else { b.Append(arr.Value(i)) }`. -/
def copyEntry {α : Type} (b : ArrowArr α) (arr : ArrowArr α) (i : Nat) : ArrowArr α :=
  match arr.getD i none with
  | none => appendNull b
  | some v => appendValue b v

/-- The loop of `Copy{{.Name}}sTo`: `for i, n := 0, arr.Len(); i < n; i++`
running `copyEntry` at each `i`.  (`Reserve`/`ReserveData` only
pre-allocate capacity and do not change the appended contents.) -/
def copyValuesTo {α : Type} (b : ArrowArr α) (arr : ArrowArr α) : ArrowArr α :=
  (List.range arr.length).foldl (fun acc i => copyEntry acc arr i) b

/-- The loop of `Copy{{.Name}}sByIndexTo`: for each `i` below `indices.Len()`
it takes `offset := int(indices.Value(i))` and runs `copyEntry` at `offset`. -/
def copyValuesByIndexTo {α : Type} (b : ArrowArr α) (arr : ArrowArr α)
    (indices : List Int) : ArrowArr α :=
  indices.foldl (fun acc idx => copyEntry acc arr idx.toNat) b

theorem copyEntry_eq {α : Type} (b arr : ArrowArr α) (i : Nat) :
    copyEntry b arr i = b ++ [arr.getD i none] := by
  unfold copyEntry
  cases h : arr.getD i none <;> simp [appendNull, appendValue]

theorem foldl_append_one {α β : Type} (f : β → Option α) (l : List β) (b : List (Option α)) :
    l.foldl (fun acc i => acc ++ [f i]) b = b ++ l.map f := by
  induction l generalizing b with
  | nil => simp
  | cons x xs ih => simp [ih]

theorem foldl_copyEntry {α : Type} (arr : ArrowArr α) (l : List Nat) (b : ArrowArr α) :
    l.foldl (fun acc i => copyEntry acc arr i) b
      = b ++ l.map (fun i => arr.getD i none) := by
  have hfun : (fun (acc : ArrowArr α) i => copyEntry acc arr i)
      = fun acc i => acc ++ [arr.getD i none] :=
    funext fun acc => funext fun i => copyEntry_eq acc arr i
  rw [hfun, foldl_append_one]

theorem range_map_getD {α : Type} (arr : ArrowArr α) :
    (List.range arr.length).map (fun i => arr.getD i none) = arr := by
  apply List.ext_getElem
  · simp
  · intro i h1 h2
    simp only [List.getElem_map, List.getElem_range]
    exact List.getD_eq_getElem _ _ h2

/-- Copying appends the array verbatim behind the builder contents. -/
theorem copyValuesTo_eq {α : Type} (b arr : ArrowArr α) :
    copyValuesTo b arr = b ++ arr := by
  rw [copyValuesTo, foldl_copyEntry, range_map_getD]

/-- Copy-by-index appends, for each index in order, the entry of `arr` at
that offset. -/
theorem copyValuesByIndexTo_eq {α : Type} (b arr : ArrowArr α) (indices : List Int) :
    copyValuesByIndexTo b arr indices
      = b ++ indices.map (fun idx => arr.getD idx.toNat none) := by
  rw [copyValuesByIndexTo]
  have hfun : (fun (acc : ArrowArr α) (idx : Int) => copyEntry acc arr idx.toNat)
      = fun (acc : ArrowArr α) (idx : Int) => acc ++ [arr.getD idx.toNat none] :=
    funext fun acc => funext fun idx => copyEntry_eq acc arr idx.toNat
  rw [hfun, foldl_append_one (fun idx : Int => arr.getD idx.toNat none)]

/-- Claim C8: `CopyTo` (via the per-type copy loop) appends exactly
`arr.Len()` entries to the builder, in order; the builder's previous
contents are untouched, and the entry appended for index `i` is null
exactly when `arr.IsNull(i)` and otherwise carries the value of `arr`
at `i` (both captured by equality of `Option` entries). -/
theorem copyTo_appends_in_order {α : Type} (b arr : ArrowArr α) :
    (copyValuesTo b arr).length = b.length + arr.length ∧
    (copyValuesTo b arr).take b.length = b ∧
    ∀ i : Nat, i < arr.length →
      (copyValuesTo b arr).getD (b.length + i) none = arr.getD i none := by
  refine ⟨?_, ?_, ?_⟩
  · simp [copyValuesTo_eq]
  · simp [copyValuesTo_eq]
  · intro i hi
    rw [copyValuesTo_eq]
    rw [List.getD_eq_getElem _ _ (by simp [hi] : b.length + i < (b ++ arr).length)]
    rw [List.getD_eq_getElem _ _ hi]
    simp [List.getElem_append_right]

/-- Witness for C8 at a concrete builder and array. -/
theorem copyTo_appends_in_order_witness :
    (copyValuesTo [some 7] [none, some 2]).getD (1 + 1) none
      = ([none, some 2] : ArrowArr Nat).getD 1 none :=
  (copyTo_appends_in_order [some 7] [none, some 2]).2.2 1 (by decide)

/-- Claim C9: when every index is an in-bounds offset into `arr`,
`CopyByIndexTo` appends exactly `indices.Len()` entries, and the entry
appended for position `i` is null exactly when `arr.IsNull(indices[i])`
and otherwise carries the value of `arr` at offset `indices[i]`. -/
theorem copyByIndexTo_appends_at_offsets {α : Type} (b arr : ArrowArr α)
    (indices : List Int)
    (h : ∀ idx ∈ indices, 0 ≤ idx ∧ idx.toNat < arr.length) :
    (copyValuesByIndexTo b arr indices).length = b.length + indices.length ∧
    ∀ i : Nat, i < indices.length →
      (indices.getD i 0).toNat < arr.length ∧
      (copyValuesByIndexTo b arr indices).getD (b.length + i) none
        = arr.getD (indices.getD i 0).toNat none := by
  constructor
  · simp [copyValuesByIndexTo_eq]
  · intro i hi
    have hmem : indices.getD i 0 ∈ indices := by
      rw [List.getD_eq_getElem _ _ hi]
      exact List.getElem_mem hi
    refine ⟨(h _ hmem).2, ?_⟩
    rw [copyValuesByIndexTo_eq]
    rw [List.getD_eq_getElem _ _
      (by simp [hi] : b.length + i < (b ++ indices.map (fun idx => arr.getD idx.toNat none)).length)]
    rw [List.getD_eq_getElem _ _ hi]
    simp [List.getElem_append_right]

/-- Witness for C9 at a concrete builder, array and index list. -/
theorem copyByIndexTo_appends_at_offsets_witness :
    (copyValuesByIndexTo [] [some 5, none, some 6] [2, 0]).getD (0 + 1) none
      = ([some 5, none, some 6] : ArrowArr Nat).getD (([2, 0] : List Int).getD 1 0).toNat none :=
  ((copyByIndexTo_appends_at_offsets [] [some 5, none, some 6] [2, 0]
    (by decide)).2 1 (by decide)).2

end arrowutil

namespace repl

/-- The REPL's cancel slot from `repl/repl.go`: `cancelFunc` holds the
registered `context.CancelFunc` (`none` models Go's `nil`), identified by a
number so invocations can be counted; `invoked f` counts how many times the
cancel function with identity `f` has been called.  The `cancelMu` mutex
serialises the operations, so they are modelled as sequential state
updates. -/
structure REPLState where
  cancelFunc : Option Nat
  invoked : Nat → Nat

/-- Method `cancel` of `repl/repl.go`: under the mutex, if `cancelFunc` is
not nil it is invoked and then set to nil; otherwise nothing happens. -/
def cancel (r : REPLState) : REPLState :=
  match r.cancelFunc with
  | none => r
  | some f =>
      { cancelFunc := none
        invoked := fun g => if g = f then r.invoked g + 1 else r.invoked g }

/-- Method `setCancel` of `repl/repl.go`: under the mutex, stores `cf` in
the slot without invoking anything. -/
def setCancel (r : REPLState) (cf : Option Nat) : REPLState :=
  { r with cancelFunc := cf }

/-- Method `clearCancel` of `repl/repl.go`: `setCancel(nil)`. -/
def clearCancel (r : REPLState) : REPLState :=
  setCancel r none

/-- The REPL operations that touch the cancel slot. -/
inductive CancelOp
  | cancelCall
  | setCancelCall (cf : Option Nat)
  | clearCancelCall

/-- Applies one operation to the REPL state. -/
def applyOp (r : REPLState) : CancelOp → REPLState
  | CancelOp.cancelCall => cancel r
  | CancelOp.setCancelCall cf => setCancel r cf
  | CancelOp.clearCancelCall => clearCancel r

/-- Runs a list of operations left to right. -/
def runOps (r : REPLState) (ops : List CancelOp) : REPLState :=
  ops.foldl applyOp r

/-- Applying any operation that does not re-register `f` preserves the
invariant that `f` has been invoked at most once, and not at all while it
is still the registered function. -/
theorem applyOp_invariant (f : Nat) (r : REPLState) (op : CancelOp)
    (hreg : ∀ cf, op = CancelOp.setCancelCall cf → cf ≠ some f)
    (h1 : r.invoked f ≤ 1) (h2 : r.cancelFunc = some f → r.invoked f = 0) :
    (applyOp r op).invoked f ≤ 1 ∧
      ((applyOp r op).cancelFunc = some f → (applyOp r op).invoked f = 0) := by
  cases op with
  | cancelCall =>
      simp only [applyOp, cancel]
      cases hc : r.cancelFunc with
      | none => exact ⟨h1, h2⟩
      | some g =>
          by_cases hg : g = f
          · subst hg
            have h0 := h2 hc
            exact ⟨by simp [h0], by simp⟩
          · refine ⟨?_, by simp⟩
            have hfg : f ≠ g := fun h => hg h.symm
            simpa [hfg] using h1
  | setCancelCall cf =>
      have hcf := hreg cf rfl
      simp only [applyOp, setCancel]
      exact ⟨h1, fun h => absurd h hcf⟩
  | clearCancelCall =>
      simp only [applyOp, clearCancel, setCancel]
      exact ⟨h1, by simp⟩

/-- Running any operations that never re-register `f` preserves the same
invariant. -/
theorem runOps_invariant (f : Nat) (ops : List CancelOp) (r : REPLState)
    (hreg : ∀ cf, CancelOp.setCancelCall cf ∈ ops → cf ≠ some f)
    (h1 : r.invoked f ≤ 1) (h2 : r.cancelFunc = some f → r.invoked f = 0) :
    (runOps r ops).invoked f ≤ 1 := by
  induction ops generalizing r with
  | nil => exact h1
  | cons op rest ih =>
      have hstep := applyOp_invariant f r op
        (fun cf hop => hreg cf (by simp [hop])) h1 h2
      exact ih (applyOp r op)
        (fun cf hmem => hreg cf (by simp [hmem])) hstep.1 hstep.2

/-- Claim C10: the REPL's `cancel` is idempotent and safe without a running
query.  After `cancel` the stored `cancelFunc` is nil; a second `cancel`
with no intervening `setCancel` invokes no cancel function and changes
nothing; and a function registered by `setCancel` is invoked at most once
over any subsequent operations that do not register it again. -/
theorem repl_cancel_idempotent (r : REPLState) (f : Nat) (ops : List CancelOp)
    (hfresh : r.invoked f = 0)
    (hreg : ∀ cf, CancelOp.setCancelCall cf ∈ ops → cf ≠ some f) :
    (cancel r).cancelFunc = none ∧
    cancel (cancel r) = cancel r ∧
    (runOps (setCancel r (some f)) ops).invoked f ≤ 1 := by
  refine ⟨?_, ?_, ?_⟩
  · cases hc : r.cancelFunc <;> simp [cancel, hc]
  · cases hc : r.cancelFunc <;> simp [cancel, hc]
  · exact runOps_invariant f ops (setCancel r (some f)) hreg
      (by simp [setCancel, hfresh]) (by simp [setCancel, hfresh])

/-- Witness for C10: a concrete state with a registered function, canceled
twice and re-run through a cancel-heavy operation list. -/
theorem repl_cancel_idempotent_witness :
    (cancel { cancelFunc := some 3, invoked := fun _ => 0 }).cancelFunc = none ∧
    cancel (cancel { cancelFunc := some 3, invoked := fun _ => 0 })
      = cancel { cancelFunc := some 3, invoked := fun _ => 0 } ∧
    (runOps (setCancel { cancelFunc := some 3, invoked := fun _ => 0 } (some 5))
      [CancelOp.cancelCall, CancelOp.cancelCall, CancelOp.clearCancelCall,
        CancelOp.setCancelCall (some 4), CancelOp.cancelCall]).invoked 5 ≤ 1 :=
  repl_cancel_idempotent { cancelFunc := some 3, invoked := fun _ => 0 } 5
    [CancelOp.cancelCall, CancelOp.cancelCall, CancelOp.clearCancelCall,
      CancelOp.setCancelCall (some 4), CancelOp.cancelCall]
    rfl (by intro cf hmem; simp at hmem; subst hmem; simp)

end repl

namespace engine

/-- Modelled from the spec: the Dispatcher and its per-GroupKey state
machine of section 4.5 are not part of the sampled sources.  Per key at an
edge the states are Open (receiving Process), Finishing (Finish delivered,
flush in progress) and Closed; `Open → Finishing` happens exactly once and
neither Finishing nor Closed accepts any further message. -/
inductive KeyState
  | opened
  | finishing
  | closed
deriving DecidableEq

/-- Modelled from the spec: a Message is either `Process(Table)` (the table
identified by a number) or `Finish(key, error or nil)` for the key at hand. -/
inductive KeyMsg
  | process (tbl : Nat)
  | finish
deriving DecidableEq

/-- Modelled from the spec: message acceptance per (edge, GroupKey).
Process is accepted only while Open; Finish moves Open to Finishing; a
Process delivered after the Open state has been left is a protocol
violation, so no message is accepted in Finishing or Closed. -/
def accept : KeyState → KeyMsg → Option KeyState
  | KeyState.opened, KeyMsg.process _ => some KeyState.opened
  | KeyState.opened, KeyMsg.finish => some KeyState.finishing
  | _, _ => none

/-- Modelled from the spec: the internal flush completion taking Finishing
to Closed. -/
def flushStep : KeyState → KeyState
  | KeyState.finishing => KeyState.closed
  | s => s

/-- Delivers a list of messages in order, failing if any delivery violates
the per-key protocol. -/
def runMsgs : KeyState → List KeyMsg → Option KeyState
  | s, [] => some s
  | s, m :: rest =>
      match accept s m with
      | none => none
      | some s2 => runMsgs s2 rest

theorem runMsgs_finishing_nil (tr : List KeyMsg)
    (h : runMsgs KeyState.finishing tr = some KeyState.finishing) : tr = [] := by
  cases tr with
  | nil => rfl
  | cons m rest => cases m <;> simp [runMsgs, accept] at h

theorem count_finish_of_all_process (ps : List KeyMsg)
    (hps : ∀ m ∈ ps, ∃ t, m = KeyMsg.process t) : ps.count KeyMsg.finish = 0 := by
  rw [List.count_eq_zero]
  intro hmem
  obtain ⟨t, ht⟩ := hps _ hmem
  cases ht

/-- Claim C3: for every GroupKey that reaches the Finished state on an
edge, the delivered message trace is some Process messages followed by a
single final Finish: Finish is delivered exactly once, after every Process
for that key on that edge, and once the key is Finished no Process message
is ever accepted on that edge again (neither in Finishing nor in Closed). -/
theorem dispatcher_finish_exactly_once (tr : List KeyMsg)
    (h : runMsgs KeyState.opened tr = some KeyState.finishing) :
    tr.count KeyMsg.finish = 1 ∧
    (∃ ps : List KeyMsg, (∀ m ∈ ps, ∃ t, m = KeyMsg.process t) ∧
      tr = ps ++ [KeyMsg.finish]) ∧
    (∀ t, accept KeyState.finishing (KeyMsg.process t) = none ∧
      accept (flushStep KeyState.finishing) (KeyMsg.process t) = none) := by
  have key : ∃ ps : List KeyMsg, (∀ m ∈ ps, ∃ t, m = KeyMsg.process t) ∧
      tr = ps ++ [KeyMsg.finish] := by
    induction tr with
    | nil => simp [runMsgs] at h
    | cons m rest ih =>
        cases m with
        | process t =>
            simp only [runMsgs, accept] at h
            obtain ⟨ps, hps, hrest⟩ := ih h
            exact ⟨KeyMsg.process t :: ps, by
              intro m hm
              cases hm with
              | head => exact ⟨t, rfl⟩
              | tail _ hm2 => exact hps _ hm2, by simp [hrest]⟩
        | finish =>
            simp only [runMsgs, accept] at h
            have := runMsgs_finishing_nil rest h
            subst this
            exact ⟨[], by simp, rfl⟩
  obtain ⟨ps, hps, htr⟩ := key
  refine ⟨?_, ⟨ps, hps, htr⟩, ?_⟩
  · rw [htr, List.count_append, count_finish_of_all_process ps hps]
    simp
  · intro t
    exact ⟨rfl, rfl⟩

/-- Witness for C3: a concrete two-Process-then-Finish trace. -/
theorem dispatcher_finish_exactly_once_witness :
    ([KeyMsg.process 1, KeyMsg.process 2, KeyMsg.finish].count KeyMsg.finish = 1) ∧
    (∀ t, accept KeyState.finishing (KeyMsg.process t) = none ∧
      accept (flushStep KeyState.finishing) (KeyMsg.process t) = none) :=
  ⟨(dispatcher_finish_exactly_once
      [KeyMsg.process 1, KeyMsg.process 2, KeyMsg.finish] (by decide)).1,
   (dispatcher_finish_exactly_once
      [KeyMsg.process 1, KeyMsg.process 2, KeyMsg.finish] (by decide)).2.2⟩

/-- Modelled from the spec: Allocator operations of section 4.2; the engine
code is not part of the sampled sources.  `alloc n` increments the
used-bytes counter by `n`, `free n` decrements it by `n`. -/
inductive AllocEvent
  | alloc (n : Nat)
  | free (n : Nat)
deriving DecidableEq

/-- Used-bytes counter after applying the events to a starting value. -/
def usedFrom (acc : Int) (tr : List AllocEvent) : Int :=
  tr.foldl (fun u e =>
    match e with
    | AllocEvent.alloc n => u + n
    | AllocEvent.free n => u - n) acc

/-- Total Allocator bytes used after a trace, starting from zero. -/
def usedAfter (tr : List AllocEvent) : Int := usedFrom 0 tr

/-- The sizes of the allocations in a trace, in order. -/
def allocSizes (tr : List AllocEvent) : List Nat :=
  tr.filterMap fun e =>
    match e with
    | AllocEvent.alloc n => some n
    | AllocEvent.free _ => none

/-- The sizes of the frees in a trace, in order. -/
def freeSizes (tr : List AllocEvent) : List Nat :=
  tr.filterMap fun e =>
    match e with
    | AllocEvent.alloc _ => none
    | AllocEvent.free n => some n

theorem usedFrom_eq (tr : List AllocEvent) (acc : Int) :
    usedFrom acc tr = acc + (allocSizes tr).sum - (freeSizes tr).sum := by
  induction tr generalizing acc with
  | nil => simp [usedFrom, allocSizes, freeSizes]
  | cons e rest ih =>
      cases e with
      | alloc n =>
          simp only [usedFrom, List.foldl_cons] at *
          rw [ih (acc + n)]
          simp [allocSizes, freeSizes]
          ring
      | free n =>
          simp only [usedFrom, List.foldl_cons] at *
          rw [ih (acc - n)]
          simp [allocSizes, freeSizes]
          ring

/-- Claim C4: when a Query fully drains — every allocated buffer is freed
with its allocated size, i.e. the multiset of freed sizes is a permutation
of the multiset of allocated sizes — the Allocator's used-bytes counter is
exactly zero: the sum of all Alloc increments minus all Free decrements
vanishes. -/
theorem allocator_drains_to_zero (tr : List AllocEvent)
    (h : (freeSizes tr).Perm (allocSizes tr)) : usedAfter tr = 0 := by
  rw [usedAfter, usedFrom_eq, h.sum_eq]
  ring

/-- Witness for C4: a concrete trace of interleaved allocations and frees
that drains completely. -/
theorem allocator_drains_to_zero_witness :
    usedAfter [AllocEvent.alloc 8, AllocEvent.alloc 4, AllocEvent.free 4,
      AllocEvent.alloc 2, AllocEvent.free 8, AllocEvent.free 2] = 0 :=
  allocator_drains_to_zero _ (by decide)

/-- Modelled from the spec: execution events seen by the Dispatcher, whose
code is not part of the sampled sources — either a node reports an error,
or a Table is delivered to the caller. -/
inductive ExecEvent
  | errorAt (e : String)
  | emit (tbl : Nat)
deriving DecidableEq

/-- Modelled from the spec: Dispatcher error state — the adopted first
error (surfaced later through `Query.Err()`), whether peers have been
canceled, and the Tables delivered to the caller so far. -/
structure DispState where
  firstErr : Option String
  canceled : Bool
  delivered : List Nat
deriving DecidableEq

/-- Initial Dispatcher state: no error, not canceled, nothing delivered. -/
def dispInit : DispState := ⟨none, false, []⟩

/-- Modelled from the spec: one Dispatcher step.  The first error is
adopted and cancels all peers; subsequent errors are discarded; once
canceled, no further Tables are emitted. -/
def dispStep (s : DispState) : ExecEvent → DispState
  | ExecEvent.errorAt e =>
      match s.firstErr with
      | some _ => s
      | none => { s with firstErr := some e, canceled := true }
  | ExecEvent.emit t =>
      if s.canceled then s
      else { s with delivered := s.delivered ++ [t] }

/-- Runs the Dispatcher over an event sequence from the initial state. -/
def dispRun (evs : List ExecEvent) : DispState := evs.foldl dispStep dispInit

/-- Modelled from the spec: `Query.Err()` returns the terminal error after
drain. -/
def queryErr (s : DispState) : Option String := s.firstErr

/-- The first error occurring in an event sequence, if any. -/
def firstErrorOf (evs : List ExecEvent) : Option String :=
  (evs.filterMap fun ev =>
    match ev with
    | ExecEvent.errorAt e => some e
    | ExecEvent.emit _ => none).head?

/-- The Tables emitted before the first error of an event sequence. -/
def emitsBeforeError (evs : List ExecEvent) : List Nat :=
  (evs.takeWhile fun ev =>
    match ev with
    | ExecEvent.errorAt _ => false
    | ExecEvent.emit _ => true).filterMap
    fun ev =>
      match ev with
      | ExecEvent.errorAt _ => none
      | ExecEvent.emit t => some t

theorem dispStep_inert (s : DispState) (e : String) (hs : s.firstErr = some e)
    (hc : s.canceled = true) (evs : List ExecEvent) : evs.foldl dispStep s = s := by
  induction evs with
  | nil => rfl
  | cons ev rest ih =>
      have hstep : dispStep s ev = s := by
        cases ev with
        | errorAt f => simp [dispStep, hs]
        | emit t => simp [dispStep, hc]
      rw [List.foldl_cons, hstep, ih]

theorem dispRun_from (s : DispState) (hs : s.firstErr = none)
    (hc : s.canceled = false) (evs : List ExecEvent) :
    (evs.foldl dispStep s).firstErr = firstErrorOf evs ∧
    (evs.foldl dispStep s).canceled = (firstErrorOf evs).isSome ∧
    (evs.foldl dispStep s).delivered = s.delivered ++ emitsBeforeError evs := by
  induction evs generalizing s with
  | nil => simp [firstErrorOf, emitsBeforeError, hs, hc]
  | cons ev rest ih =>
      cases ev with
      | errorAt e =>
          have hstep : dispStep s (ExecEvent.errorAt e)
              = { s with firstErr := some e, canceled := true } := by
            simp [dispStep, hs]
          rw [List.foldl_cons, hstep,
            dispStep_inert { s with firstErr := some e, canceled := true } e rfl rfl rest]
          simp [firstErrorOf, emitsBeforeError]
      | emit t =>
          have hstep : dispStep s (ExecEvent.emit t)
              = { s with delivered := s.delivered ++ [t] } := by
            simp [dispStep, hc]
          rw [List.foldl_cons, hstep]
          obtain ⟨h1, h2, h3⟩ := ih { s with delivered := s.delivered ++ [t] } hs hc
          refine ⟨?_, ?_, ?_⟩
          · rw [h1]; simp [firstErrorOf]
          · rw [h2]; simp [firstErrorOf]
          · rw [h3]; simp [emitsBeforeError]

/-- Claim C5: across any execution event sequence, the Dispatcher adopts
exactly the first error — `Query.Err()` returns it, subsequent errors are
discarded — peers are canceled exactly when some error occurred, the
Tables delivered are exactly those emitted before the failure (so earlier
deliveries remain valid), and no Table is emitted after the failure. -/
theorem dispatcher_first_error_wins (evs : List ExecEvent) :
    queryErr (dispRun evs) = firstErrorOf evs ∧
    (dispRun evs).canceled = (firstErrorOf evs).isSome ∧
    (dispRun evs).delivered = emitsBeforeError evs := by
  obtain ⟨h1, h2, h3⟩ := dispRun_from dispInit rfl rfl evs
  exact ⟨h1, h2, by simpa [dispInit] using h3⟩

/-- Modelled from the spec: the Query's terminal error kind — a Canceled
outcome is reported distinctly from a genuine failure. -/
inductive QueryErrKind
  | canceledErr
  | failed (e : String)
deriving DecidableEq

/-- Modelled from the spec: the observable state of a running Query whose
Sources poll the cancellable context at table boundaries.  `pending` are
the Tables the Sources would still produce; `emitted` those already
delivered; `done` and `errResult` the terminal outcome. -/
structure QState where
  ctxCanceled : Bool
  pending : List Nat
  emitted : List Nat
  done : Bool
  errResult : Option QueryErrKind
deriving DecidableEq

/-- Modelled from the spec: one table-boundary step of a Query.  A done
Query stays put; a canceled context stops the Sources immediately and
terminates the Query with the Canceled error; otherwise the next pending
Table is emitted, or the Query drains successfully. -/
def qstep (s : QState) : QState :=
  if s.done then s
  else if s.ctxCanceled then
    { s with done := true, errResult := some QueryErrKind.canceledErr, pending := [] }
  else
    match s.pending with
    | [] => { s with done := true }
    | t :: rest => { s with emitted := s.emitted ++ [t], pending := rest }

theorem qstep_done_fixed (s : QState) (h : s.done = true) : qstep s = s := by
  simp [qstep, h]

theorem qstep_iterate_done_fixed (s : QState) (h : s.done = true) (n : Nat) :
    qstep^[n] s = s := by
  induction n with
  | zero => rfl
  | succ k ih => rw [Function.iterate_succ_apply, qstep_done_fixed s h, ih]

/-- Claim C6: canceling a running Query's context stops all Sources from
producing further Tables within one table-boundary step (the bounded grace
period), terminates the Query — at every later step it stays terminated,
never a silent hang — and the terminal error is the Canceled kind, which is
distinguishable from every genuine failure. -/
theorem query_cancellation_stops_sources (s : QState)
    (hcancel : s.ctxCanceled = true) (hrun : s.done = false) :
    (qstep s).done = true ∧
    (qstep s).errResult = some QueryErrKind.canceledErr ∧
    (qstep s).emitted = s.emitted ∧
    (∀ n : Nat, (qstep^[n] (qstep s)).emitted = s.emitted ∧
      (qstep^[n] (qstep s)).done = true) ∧
    (∀ e : String, (qstep s).errResult ≠ some (QueryErrKind.failed e)) := by
  have hstep : qstep s
      = ⟨s.ctxCanceled, [], s.emitted, true, some QueryErrKind.canceledErr⟩ := by
    simp [qstep, hrun, hcancel]
  refine ⟨by rw [hstep], by rw [hstep], by rw [hstep], ?_, ?_⟩
  · intro n
    rw [qstep_iterate_done_fixed (qstep s) (by rw [hstep]) n, hstep]
    exact ⟨rfl, rfl⟩
  · intro e
    rw [hstep]
    simp

/-- Witness for C6: a canceled Query with two Tables still pending. -/
theorem query_cancellation_stops_sources_witness :
    (qstep ⟨true, [4, 5], [3], false, none⟩).done = true ∧
    (qstep ⟨true, [4, 5], [3], false, none⟩).errResult
      = some QueryErrKind.canceledErr ∧
    (qstep ⟨true, [4, 5], [3], false, none⟩).emitted
      = (⟨true, [4, 5], [3], false, none⟩ : QState).emitted ∧
    (∀ n : Nat, (qstep^[n] (qstep ⟨true, [4, 5], [3], false, none⟩)).emitted
        = (⟨true, [4, 5], [3], false, none⟩ : QState).emitted ∧
      (qstep^[n] (qstep ⟨true, [4, 5], [3], false, none⟩)).done = true) ∧
    (∀ e : String, (qstep ⟨true, [4, 5], [3], false, none⟩).errResult
        ≠ some (QueryErrKind.failed e)) :=
  query_cancellation_stops_sources ⟨true, [4, 5], [3], false, none⟩ rfl rfl

/-- Modelled from the spec: the lifecycle phase of a Table — sealed
(read-only, not yet iterated), consumed by its single `Do` pass, or
released. -/
inductive TablePhase
  | sealedPhase
  | consumedPhase
  | releasedPhase
deriving DecidableEq

/-- Modelled from the spec: a sealed Table — a group key, its columnar
contents, and the lifecycle phase. -/
structure MTable (α : Type) where
  key : Nat
  contents : α
  phase : TablePhase

/-- Modelled from the spec: `Do` applies the caller to the full batch
contents on the first pass and consumes the Table; calling it again, or
after release, fails deterministically with an error. -/
def tableDo {α : Type} (t : MTable α) : Except String (α × MTable α) :=
  match t.phase with
  | TablePhase.sealedPhase =>
      Except.ok (t.contents, { t with phase := TablePhase.consumedPhase })
  | TablePhase.consumedPhase =>
      Except.error "table already consumed: cannot iterate a table twice"
  | TablePhase.releasedPhase =>
      Except.error "table released: cannot iterate"

/-- Claim C7: on a sealed Table the first full `Do` pass succeeds with the
complete contents, and any second `Do` (on the consumed table) or any `Do`
after release fails deterministically with an explicit error — never
partial, replayed or garbage data. -/
theorem table_do_single_pass {α : Type} (t : MTable α)
    (h : t.phase = TablePhase.sealedPhase) :
    tableDo t = Except.ok (t.contents, { t with phase := TablePhase.consumedPhase }) ∧
    tableDo { t with phase := TablePhase.consumedPhase }
      = Except.error "table already consumed: cannot iterate a table twice" ∧
    tableDo { t with phase := TablePhase.releasedPhase }
      = Except.error "table released: cannot iterate" :=
  ⟨by rw [tableDo, h], rfl, rfl⟩

/-- Witness for C7: a concrete sealed Table. -/
theorem table_do_single_pass_witness :
    tableDo ⟨1, [10, 20], TablePhase.sealedPhase⟩
      = Except.ok (([10, 20] : List Nat),
        ⟨1, [10, 20], TablePhase.consumedPhase⟩) ∧
    tableDo (⟨1, [10, 20], TablePhase.consumedPhase⟩ : MTable (List Nat))
      = Except.error "table already consumed: cannot iterate a table twice" ∧
    tableDo (⟨1, [10, 20], TablePhase.releasedPhase⟩ : MTable (List Nat))
      = Except.error "table released: cannot iterate" :=
  table_do_single_pass ⟨1, [10, 20], TablePhase.sealedPhase⟩ rfl

end engine

namespace tables

/-- Modelled from the spec: a table for the rename-plus-project scenario —
an ordered list of named string columns, each column a list of cell
values; the `rename` and `keep` transformations themselves are not part of
the sampled sources. -/
structure STable where
  cols : List (String × List String)
deriving DecidableEq

/-- Modelled from the spec: `rename(columns: {old: new})` — renames the
column called `old` to `new`, leaving every other column and all cell
values (hence all rows and their order) unchanged. -/
def renameCol (t : STable) (old new : String) : STable :=
  ⟨t.cols.map fun c => if c.1 = old then (new, c.2) else c⟩

/-- Modelled from the spec: `keep(columns: ks)` — projects the table to the
named columns, preserving the column contents and row order. -/
def keepCols (t : STable) (ks : List String) : STable :=
  ⟨t.cols.filter fun c => ks.contains c.1⟩

/-- Claim C2: for an input table with columns organizationID, name, id,
retentionPolicy and retentionPeriod whose two rows have name "A" then "B",
renaming column name to value and projecting to the single column value
yields a table with exactly one column, called value, whose rows are "A"
then "B" in the original input order — whatever the other columns
contained. -/
theorem rename_keep_scenario (orgs ids rps rpds : List String) :
    keepCols
      (renameCol
        ⟨[("organizationID", orgs), ("name", ["A", "B"]), ("id", ids),
          ("retentionPolicy", rps), ("retentionPeriod", rpds)]⟩
        "name" "value")
      ["value"]
      = ⟨[("value", ["A", "B"])]⟩ := by
  simp [renameCol, keepCols, List.filter]

end tables

namespace fp

/-- An exact rational value carried as an unnormalised fraction of
integers, the denominator kept positive by construction.  Used to model
IEEE-754 binary64 (double) values and computations bit-exactly. -/
structure PreRat where
  num : Int
  den : Int
deriving DecidableEq

/-- The fraction standing for the integer `n`. -/
def pofInt (n : Int) : PreRat := ⟨n, 1⟩

/-- Exact addition of fractions. -/
def padd (a b : PreRat) : PreRat := ⟨a.num * b.den + b.num * a.den, a.den * b.den⟩

/-- Exact subtraction of fractions. -/
def psub (a b : PreRat) : PreRat := ⟨a.num * b.den - b.num * a.den, a.den * b.den⟩

/-- Exact multiplication of fractions. -/
def pmul (a b : PreRat) : PreRat := ⟨a.num * b.num, a.den * b.den⟩

/-- Exact division of fractions, keeping the denominator positive. -/
def pdiv (a b : PreRat) : PreRat :=
  if b.num < 0 then ⟨-(a.num * b.den), a.den * (-b.num)⟩ else ⟨a.num * b.den, a.den * b.num⟩

/-- Exact negation of a fraction. -/
def pneg (a : PreRat) : PreRat := ⟨-a.num, a.den⟩

/-- Strict order of fractions with positive denominators. -/
def plt (a b : PreRat) : Bool := a.num * b.den < b.num * a.den

/-- Non-strict order of fractions with positive denominators. -/
def ple (a b : PreRat) : Bool := a.num * b.den ≤ b.num * a.den

/-- Value equality of fractions with positive denominators. -/
def peq (a b : PreRat) : Bool := a.num * b.den = b.num * a.den

/-- Floor of a fraction with positive denominator. -/
def pfloor (a : PreRat) : Int := a.num.ediv a.den

/-- Rounds a fraction to the nearest integer, ties to even — the IEEE-754
default rounding. -/
def roundHalfEven (x : PreRat) : Int :=
  let f := pfloor x
  let r := psub x (pofInt f)
  if plt r ⟨1, 2⟩ then f
  else if plt ⟨1, 2⟩ r then f + 1
  else if f % 2 = 0 then f else f + 1

/-- The power of two with integer exponent, as a fraction. -/
def pow2 (n : Int) : PreRat :=
  match n with
  | Int.ofNat m => ⟨2 ^ m, 1⟩
  | Int.negSucc m => ⟨1, 2 ^ (m + 1)⟩

/-- Fuel-bounded search: for `1 ≤ q`, the largest `n` with `2 ^ n ≤ q`. -/
def log2ge1 : Nat → PreRat → Nat
  | 0, _ => 0
  | fuel + 1, q => if plt q ⟨2, 1⟩ then 0 else log2ge1 fuel (pdiv q ⟨2, 1⟩) + 1

/-- Fuel-bounded search: for `0 < q < 1`, the smallest `n` with
`1 ≤ q * 2 ^ n`. -/
def log2lt1 : Nat → PreRat → Nat
  | 0, _ => 0
  | fuel + 1, q => if ple ⟨1, 1⟩ q then 0 else log2lt1 fuel (pmul q ⟨2, 1⟩) + 1

/-- The binary exponent of a positive fraction: the `e` with
`2 ^ e ≤ q < 2 ^ (e + 1)`; the fuel of 1100 covers the whole binary64
exponent range. -/
def exponentOf (q : PreRat) : Int :=
  if ple ⟨1, 1⟩ q then (log2ge1 1100 q : Int) else -(log2lt1 1100 q : Int)

/-- The binary64 value nearest to a positive fraction: the significand is
rounded to 53 bits, to nearest, ties to even. -/
def toDoublePos (q : PreRat) : PreRat :=
  let e := exponentOf q
  let shift := 52 - e
  pmul (pofInt (roundHalfEven (pmul q (pow2 shift)))) (pow2 (-shift))

/-- The binary64 value nearest to a fraction (overflow and subnormals do
not arise at the magnitudes of this development). -/
def toDouble (q : PreRat) : PreRat :=
  if q.num = 0 then ⟨0, 1⟩
  else if q.num < 0 then pneg (toDoublePos (pneg q)) else toDoublePos q

/-- Binary64 addition: exact sum, then rounding — IEEE-754 semantics. -/
def dadd (x y : PreRat) : PreRat := toDouble (padd x y)

/-- Binary64 subtraction: exact difference, then rounding. -/
def dsub (x y : PreRat) : PreRat := toDouble (psub x y)

/-- Binary64 multiplication: exact product, then rounding. -/
def dmul (x y : PreRat) : PreRat := toDouble (pmul x y)

/-- Binary64 division: exact quotient, then rounding. -/
def ddiv (x y : PreRat) : PreRat := toDouble (pdiv x y)

/-- The binary64 value of the decimal literal `n * 10 ^ (-d)`, as parsed
from a CSV double field. -/
def decLit (n : Int) (d : Nat) : PreRat := toDouble ⟨n, 10 ^ d⟩

end fp

namespace histq

/-- Modelled from the spec: a histogram bucket's upper bound as read from
the input — negative infinity, a finite binary64 value, or positive
infinity. -/
inductive DBound
  | neginf
  | finite (x : fp.PreRat)
  | posinf
deriving DecidableEq

/-- Modelled from the spec: one bucket of a cumulative histogram series —
its upper bound and the cumulative count at that bound (a binary64
value). -/
structure Bucket where
  upper : DBound
  count : fp.PreRat
deriving DecidableEq

/-- A finite bound's value, if the bound is finite. -/
def boundVal : DBound → Option fp.PreRat
  | DBound.finite x => some x
  | _ => none

/-- Modelled from the spec: the quantile-interpolation computed by
`histogramQuantile` for one series, whose implementation is not part of
the sampled sources.  The rank is the requested quantile times the total
cumulative count; the first bucket whose cumulative count reaches the rank
is located; the value is interpolated linearly between the previous
bucket's upper bound and that bucket's upper bound, in binary64
arithmetic.  A rank landing exactly on the lower cumulative count yields
the lower bound, and interpolation toward an infinite bound yields the
finite neighbour bound instead. -/
def computeQuantile (q : fp.PreRat) (buckets : List Bucket) : Option fp.PreRat :=
  match buckets.getLast? with
  | none => none
  | some last =>
      let totalCount := last.count
      if totalCount.num = 0 then none
      else
        let rank := fp.dmul q totalCount
        match buckets.findIdx? (fun b => fp.ple rank b.count) with
        | none => none
        | some rankIdx =>
            let defBucket : Bucket := ⟨DBound.posinf, fp.pofInt 0⟩
            let lowerBound : DBound :=
              if rankIdx = 0 then DBound.neginf
              else (buckets.getD (rankIdx - 1) defBucket).upper
            let lowerCount : fp.PreRat :=
              if rankIdx = 0 then fp.pofInt 0
              else (buckets.getD (rankIdx - 1) defBucket).count
            let upperBound : DBound := (buckets.getD rankIdx defBucket).upper
            let upperCount : fp.PreRat := (buckets.getD rankIdx defBucket).count
            if fp.peq rank lowerCount then boundVal lowerBound
            else
              match upperBound with
              | DBound.posinf => boundVal lowerBound
              | DBound.neginf => none
              | DBound.finite ub =>
                  match lowerBound with
                  | DBound.neginf => some ub
                  | DBound.posinf => none
                  | DBound.finite lb =>
                      some (fp.dadd lb (fp.dmul (fp.dsub ub lb)
                        (fp.ddiv (fp.dsub rank lowerCount)
                          (fp.dsub upperCount lowerCount))))

/-- One output row per input series: the interpolated quantile value. -/
def histogramQuantileRows (q : fp.PreRat) (series : List (List Bucket)) :
    List (Option fp.PreRat) :=
  series.map (computeQuantile q)

/-- The first input series of the scenario: cumulative counts
1,2,2,2,2,2,2,8,10,10 at upper bounds 0.1,…,0.9,+Inf. -/
def series0 : List Bucket :=
  [⟨DBound.finite (fp.decLit 1 1), fp.pofInt 1⟩,
   ⟨DBound.finite (fp.decLit 2 1), fp.pofInt 2⟩,
   ⟨DBound.finite (fp.decLit 3 1), fp.pofInt 2⟩,
   ⟨DBound.finite (fp.decLit 4 1), fp.pofInt 2⟩,
   ⟨DBound.finite (fp.decLit 5 1), fp.pofInt 2⟩,
   ⟨DBound.finite (fp.decLit 6 1), fp.pofInt 2⟩,
   ⟨DBound.finite (fp.decLit 7 1), fp.pofInt 2⟩,
   ⟨DBound.finite (fp.decLit 8 1), fp.pofInt 8⟩,
   ⟨DBound.finite (fp.decLit 9 1), fp.pofInt 10⟩,
   ⟨DBound.posinf, fp.pofInt 10⟩]

/-- The second input series of the scenario: cumulative counts
0,10,15,25,35,45,45 at upper bounds -Inf,0.2,0.4,0.6,0.8,1,+Inf. -/
def series1 : List Bucket :=
  [⟨DBound.neginf, fp.pofInt 0⟩,
   ⟨DBound.finite (fp.decLit 2 1), fp.pofInt 10⟩,
   ⟨DBound.finite (fp.decLit 4 1), fp.pofInt 15⟩,
   ⟨DBound.finite (fp.decLit 6 1), fp.pofInt 25⟩,
   ⟨DBound.finite (fp.decLit 8 1), fp.pofInt 35⟩,
   ⟨DBound.finite (fp.pofInt 1), fp.pofInt 45⟩,
   ⟨DBound.posinf, fp.pofInt 45⟩]

/-- Claim C1: requesting the 0.9 quantile of the two scenario series
produces exactly one output row per series, whose interpolated values are
bit-exactly the binary64 values of the decimal literals 0.8500000000000001
and 0.91 respectively. -/
theorem histogram_quantile_scenario :
    histogramQuantileRows (fp.decLit 9 1) [series0, series1]
      = [some (fp.decLit 8500000000000001 16), some (fp.decLit 91 2)] := by
  decide

end histq
